import Mathlib

/-!
# Verification of the BLDC-Simulation sweep-orchestration pipeline

Shallow embedding of the core pipeline of this repository:

* `src/femm_runner.py` — stage-1 electromagnetic sweep runner
  (`_run_single_femm_case`, `run_femm_simulations`);
* `src/modelica_runner.py` — stage-2 system-simulation runner
  (`run_modelica_simulations`).

Strings are modelled as `List Char`.  Numeric sweep values are modelled by
their Python `str`/f-string rendering (`PyNum`): Python's `repr` of a float
round-trips, so a float value and its rendering determine each other, and the
key-building code only ever consumes the rendering.  Geometric transform
arithmetic is modelled over `ℚ` (exact arithmetic in place of IEEE doubles).
The external FEMM session and the external `omc` process are oracles: each
case's interaction outcome is an input of the embedded batch functions.
-/

/-- Strings of the embedded program, as lists of characters. -/
abbrev Str : Type := List Char

/-- A numeric sweep value as rendered by a Python f-string: a nonempty string
of digits, decimal points and minus signs (the character set of Python's
`str` of an `int` or non-exponent `float`). -/
def PyNum : Type := {s : Str // s ≠ [] ∧ ∀ c ∈ s, c.isDigit ∨ c = '.' ∨ c = '-'}

instance : DecidableEq PyNum := Subtype.instDecidableEq

/-- The rendering of the Python float `0.0` (`repr(0.0) = "0.0"`), the
component of the nominal (all-zero) geometric-error tuple. -/
def zeroF : PyNum := ⟨['0', '.', '0'], by decide⟩

/-- The rendering of the Python float `1.0`. -/
def oneF : PyNum := ⟨['1', '.', '0'], by decide⟩

/-- `femm_runner.run_femm_simulations`:
`case_name = f"static_{combo[0]}_dyn_{combo[1]}_tilt_{combo[2]}"`. -/
def caseName (a b c : PyNum) : Str :=
  "static_".toList ++ a.val ++ "_dyn_".toList ++ b.val ++ "_tilt_".toList ++ c.val

/-- `case_name.replace('.', 'p')` — the filesystem-safe substitution applied
by `run_femm_simulations` before building the output filename. -/
def dotToP (s : Str) : Str := s.map (fun c => if c = '.' then 'p' else c)

/-- The inverse substitution `'p' ↦ '.'` (the spec's "reversible
substitution"); not present in the code, used to state reversibility. -/
def pToDot (s : Str) : Str := s.map (fun c => if c = 'p' then '.' else c)

/-- `femm_runner.run_femm_simulations`:
`output_filename = f"{motor_id}_{case_name.replace('.', 'p')}.csv"` —
the key under which a stage-1 case's torque curve is persisted. -/
def stage1Key (m : Str) (a b c : PyNum) : Str :=
  m ++ "_".toList ++ dotToP (caseName a b c) ++ ".csv".toList

/-- `modelica_runner.run_modelica_simulations`:
`nominal_case_name = f"{motor_id}_static_0p0_dyn_0p0_tilt_0p0.csv"` —
the nominal-case key the stage-2 runner constructs directly. -/
def stage2NominalKey (m : Str) : Str :=
  m ++ "_static_0p0_dyn_0p0_tilt_0p0.csv".toList

/-!
## Per-case angle sweep (`_run_single_femm_case`)

`np.arange(0, stop, step)` in exact arithmetic: `⌈stop/step⌉` elements
`0, step, 2·step, …`; geometric transforms are recorded as a trace of the
relative deltas issued to the FEMM session (`mi_rotate`/`mi_movetranslate`
on rotor group 1).
-/

/-- Number of elements of `np.arange(0, stop, step)` (exact arithmetic). -/
def arangeLen (stop step : ℚ) : ℕ := (Int.ceil (stop / step)).toNat

/-- `np.arange(0, stop, step)` (exact arithmetic). -/
def arange (stop step : ℚ) : List ℚ :=
  (List.range (arangeLen stop step)).map (fun i : ℕ => (i : ℚ) * step)

/-- A relative transform delta issued to the FEMM session:
`mi_rotate(0, 0, deg)` or `mi_movetranslate(dx, dy)`. -/
inductive Delta where
  | rotate (deg : ℚ)
  | translate (dx dy : ℚ)
deriving DecidableEq

/-- The transform deltas of one iteration of the angle-sweep loop of
`_run_single_femm_case`: rotate to the angle, apply dynamic eccentricity
when nonzero, then the mandatory undo (remove the dynamic translation,
rotate back by the negative angle). -/
def stepTrace (dyn θ : ℚ) : List Delta :=
  [Delta.rotate θ]
    ++ (if dyn ≠ 0 then [Delta.translate dyn 0] else [])
    ++ (if dyn ≠ 0 then [Delta.translate (-dyn) 0] else [])
    ++ [Delta.rotate (-θ)]

/-- All transform deltas issued to the rotor group during one case of
`_run_single_femm_case`: the one-time static-eccentricity baseline
translation, then the angle-sweep loop over
`np.arange(0, 360/(poles/2), step_deg)`. -/
def caseTrace (static dyn poles stepMech : ℚ) : List Delta :=
  Delta.translate static 0 :: (arange (360 / (poles / 2)) stepMech).flatMap (stepTrace dyn)

/-- Net cumulative rotation of a trace of deltas. -/
def netRot (t : List Delta) : ℚ :=
  (t.map fun d => match d with | .rotate a => a | .translate _ _ => 0).sum

/-- Net cumulative x-translation of a trace of deltas. -/
def netTransX (t : List Delta) : ℚ :=
  (t.map fun d => match d with | .translate dx _ => dx | .rotate _ => 0).sum

/-- Net cumulative y-translation of a trace of deltas. -/
def netTransY (t : List Delta) : ℚ :=
  (t.map fun d => match d with | .translate _ dy => dy | .rotate _ => 0).sum

/-- The torque-vs-angle samples recorded by one case: one `(angle, torque)`
pair per iteration of the sweep loop, with mechanical step
`elecStep / (poles/2)` (from `run_femm_simulations`) and span
`360 / (poles/2)` (from `_run_single_femm_case`); `τ` abstracts the FEMM
torque extraction at a given angle. -/
def torqueCurve (τ : ℚ → ℚ) (poles elecStep : ℚ) : List (ℚ × ℚ) :=
  (arange (360 / (poles / 2)) (elecStep / (poles / 2))).map fun θ => (θ, τ θ)

/-!
## Stage-1 batch (`run_femm_simulations`)
-/

/-- A stage-1 geometric-error case as built by `run_femm_simulations`:
`{"static_ecc_mm": combo[0], "dynamic_ecc_mm": combo[1], "tilt_deg": combo[2]}`. -/
structure GeomCase where
  se : PyNum
  de : PyNum
  tl : PyNum
deriving DecidableEq

/-- `itertools.product(errors['static_ecc_mm'], errors['dynamic_ecc_mm'],
errors['tilt_deg'])`, in itertools order (rightmost dimension varies
fastest). -/
def product3 (ss ds ts : List PyNum) : List GeomCase :=
  ss.flatMap fun a => ds.flatMap fun b => ts.map fun c => GeomCase.mk a b c

/-- Outcome of the external FEMM interaction for one case: `ok curve` when
every step succeeds (with the recorded samples), `err` when any step of the
case raises an exception. -/
inductive SimResult where
  | ok (curve : List (ℚ × ℚ))
  | err
deriving DecidableEq

/-- External tool session events. -/
inductive SessEvent where
  | opened
  | closed
deriving DecidableEq

/-- `_run_single_femm_case` at the session/result level: on success the
session is opened, the case runs and `closefemm` is called; on an exception
the handler calls `closefemm` and returns an empty table. -/
def runSingleCase : SimResult → List SessEvent × List (ℚ × ℚ)
  | .ok curve => ([.opened, .closed], curve)
  | .err => ([.opened, .closed], [])

/-- The `(key, table)` writes of the inner case loop of
`run_femm_simulations` for one motor: a case's result is persisted iff the
returned table is nonempty (`if not results_df.empty`). -/
def motorWrites (m : Str) (combos : List GeomCase)
    (oc : Str → GeomCase → SimResult) : List (Str × List (ℚ × ℚ)) :=
  combos.flatMap fun c =>
    let df := (runSingleCase (oc m c)).2
    if df.isEmpty then [] else [(stage1Key m c.se c.de c.tl, df)]

/-- The writes of the full stage-1 batch (`run_femm_simulations`): a motor
whose DXF geometry asset does not exist is skipped (`continue`). -/
def runFemmBatch (motors : List Str) (dxfExists : Str → Bool)
    (combos : List GeomCase) (oc : Str → GeomCase → SimResult) :
    List (Str × List (ℚ × ℚ)) :=
  motors.flatMap fun m => if dxfExists m then motorWrites m combos oc else []

/-!
## Stage-2 batch (`run_modelica_simulations`)
-/

/-- `modelica_runner.run_modelica_simulations`:
`case_name = f"{motor_id}_{controller}_{freq_khz}kHz_{rpm}rpm"`. -/
def stage2Key (m ctrl : Str) (f r : PyNum) : Str :=
  m ++ "_".toList ++ ctrl ++ "_".toList ++ f.val ++ "kHz_".toList
    ++ r.val ++ "rpm".toList

/-- The stage-2 persisted result filename: `omc` writes
`{fileNamePrefix}_res.csv` for the simulated case. -/
def stage2File (m ctrl : Str) (f r : PyNum) : Str :=
  stage2Key m ctrl f r ++ "_res.csv".toList

/-- Outcome of one `omc` subprocess invocation for a case. -/
inductive OmcOutcome where
  | missing             -- `FileNotFoundError`: executable not found
  | nonZero (err : Str) -- `CalledProcessError` with captured stderr
  | success

/-- Observable events of the stage-2 batch. -/
inductive S2Event where
  | warnSkipMotor (m : Str)
  | attempt (key : Str)
  | logStderr (key err : Str)
  | persist (key : Str)
  | fatalAbort
deriving DecidableEq

/-- A stage-2 system case, one combination of the nested
controller/frequency/speed loops. -/
structure SysCase where
  ctrl : Str
  freq : PyNum
  rpm : PyNum
deriving DecidableEq

/-- The nested `for controller / for freq_khz / for rpm` loops of
`run_modelica_simulations`, flattened in loop order. -/
def sysCases (ctrls : List Str) (fs rs : List PyNum) : List SysCase :=
  ctrls.flatMap fun c => fs.flatMap fun f => rs.map fun r => SysCase.mk c f r

/-- The inner case loops of `run_modelica_simulations` for one motor: a
`FileNotFoundError` for `omc` aborts the whole batch (the `return`), a
nonzero exit logs the captured stderr and continues with the next case, and
a successful run persists the result under the case's key.  Returns the
emitted events and whether the batch was aborted. -/
def runMotorCases (m : Str) (cs : List SysCase) (omc : Str → OmcOutcome) :
    List S2Event × Bool :=
  match cs with
  | [] => ([], false)
  | c :: rest =>
    let k := stage2Key m c.ctrl c.freq c.rpm
    match omc k with
    | .missing => ([.attempt k, .fatalAbort], true)
    | .nonZero e =>
        let p := runMotorCases m rest omc
        (.attempt k :: .logStderr k e :: p.1, p.2)
    | .success =>
        let p := runMotorCases m rest omc
        (.attempt k :: .persist k :: p.1, p.2)

/-- The stage-2 motor loop of `run_modelica_simulations`: a motor whose
nominal stage-1 entry is absent from the result store is skipped with a
warning (`continue`), and an `omc`-missing abort terminates the whole
batch. -/
def runModelicaBatch (motors : List Str) (store : Str → Bool)
    (cs : List SysCase) (omc : Str → OmcOutcome) : List S2Event × Bool :=
  match motors with
  | [] => ([], false)
  | m :: rest =>
    if store (stage2NominalKey m) then
      let p := runMotorCases m cs omc
      if p.2 then (p.1, true)
      else
        let q := runModelicaBatch rest store cs omc
        (p.1 ++ q.1, q.2)
    else
      let q := runModelicaBatch rest store cs omc
      (.warnSkipMotor m :: q.1, q.2)

/-- The keys of the cases attempted in a stage-2 event list. -/
def attemptKeys (evs : List S2Event) : List Str :=
  evs.filterMap fun e => match e with | .attempt k => some k | _ => none

/-- The keys persisted in a stage-2 event list. -/
def persistKeys (evs : List S2Event) : List Str :=
  evs.filterMap fun e => match e with | .persist k => some k | _ => none

/-!
## Case identity across stages
-/

/-- A case tuple together with its stage marker. -/
inductive CaseTuple where
  | s1 (g : GeomCase)
  | s2 (c : SysCase)
deriving DecidableEq

/-- The persisted result key (filename) of a `(motor, case, stage)`
triple. -/
def resultKey (m : Str) : CaseTuple → Str
  | .s1 g => stage1Key m g.se g.de g.tl
  | .s2 c => stage2File m c.ctrl c.freq c.rpm

/-- Well-formedness of a case tuple's identifier components: stage-2
controller names contain no underscore (the key's field separator).  Stage-1
tuples need no side condition — their numeric renderings are
underscore-free by construction. -/
def ctrlOk : CaseTuple → Prop
  | .s1 _ => True
  | .s2 c => '_' ∉ c.ctrl

/-!
## Theorems
-/

theorem stage2NominalKey_eq_stage1Key (m : Str) :
    stage2NominalKey m = stage1Key m zeroF zeroF zeroF := by
  simp [stage2NominalKey, stage1Key, caseName, dotToP, zeroF]

theorem arange_length (stop step : ℚ) :
    (arange stop step).length = arangeLen stop step := by
  rw [arange, List.length_map, List.length_range]

theorem netRot_append (l₁ l₂ : List Delta) :
    netRot (l₁ ++ l₂) = netRot l₁ + netRot l₂ := by simp [netRot]

theorem netTransX_append (l₁ l₂ : List Delta) :
    netTransX (l₁ ++ l₂) = netTransX l₁ + netTransX l₂ := by simp [netTransX]

theorem netTransY_append (l₁ l₂ : List Delta) :
    netTransY (l₁ ++ l₂) = netTransY l₁ + netTransY l₂ := by simp [netTransY]

theorem netRot_stepTrace (dyn θ : ℚ) : netRot (stepTrace dyn θ) = 0 := by
  by_cases h : dyn = 0 <;> simp [stepTrace, netRot, h]

theorem netTransX_stepTrace (dyn θ : ℚ) : netTransX (stepTrace dyn θ) = 0 := by
  by_cases h : dyn = 0 <;> simp [stepTrace, netTransX, h]

theorem netTransY_stepTrace (dyn θ : ℚ) : netTransY (stepTrace dyn θ) = 0 := by
  by_cases h : dyn = 0 <;> simp [stepTrace, netTransY, h]

theorem netRot_bind (xs : List ℚ) (f : ℚ → List Delta) :
    netRot (xs.flatMap f) = (xs.map fun x => netRot (f x)).sum := by
  induction xs with
  | nil => simp [netRot]
  | cons a tl ih => simp [List.flatMap_cons, netRot_append, ih]

theorem netTransX_bind (xs : List ℚ) (f : ℚ → List Delta) :
    netTransX (xs.flatMap f) = (xs.map fun x => netTransX (f x)).sum := by
  induction xs with
  | nil => simp [netTransX]
  | cons a tl ih => simp [List.flatMap_cons, netTransX_append, ih]

theorem netTransY_bind (xs : List ℚ) (f : ℚ → List Delta) :
    netTransY (xs.flatMap f) = (xs.map fun x => netTransY (f x)).sum := by
  induction xs with
  | nil => simp [netTransY]
  | cons a tl ih => simp [List.flatMap_cons, netTransY_append, ih]

theorem netRot_cons (d : Delta) (l : List Delta) :
    netRot (d :: l) =
      (match d with | .rotate a => a | .translate _ _ => 0) + netRot l := by
  simp [netRot]

theorem netTransX_cons (d : Delta) (l : List Delta) :
    netTransX (d :: l) =
      (match d with | .translate dx _ => dx | .rotate _ => 0) + netTransX l := by
  simp [netTransX]

theorem netTransY_cons (d : Delta) (l : List Delta) :
    netTransY (d :: l) =
      (match d with | .translate _ dy => dy | .rotate _ => 0) + netTransY l := by
  simp [netTransY]

theorem netRot_caseTrace (s d p st : ℚ) : netRot (caseTrace s d p st) = 0 := by
  rw [caseTrace, netRot_cons, netRot_bind]
  simp [netRot_stepTrace]

theorem netTransX_caseTrace (s d p st : ℚ) :
    netTransX (caseTrace s d p st) = s := by
  rw [caseTrace, netTransX_cons, netTransX_bind]
  simp [netTransX_stepTrace]

theorem netTransY_caseTrace (s d p st : ℚ) :
    netTransY (caseTrace s d p st) = 0 := by
  rw [caseTrace, netTransY_cons, netTransY_bind]
  simp [netTransY_stepTrace]

/-- C2, counterexample: for the case with static eccentricity 1 mm (dynamic
eccentricity 0, 2 poles, 90° mechanical step) the sum of all rotate and
translate deltas issued during the case is NOT the zero transform — the
one-time static baseline translation is never undone, so the net
x-translation is 1, not 0. -/
theorem caseTrace_net_not_zero :
    ¬ (netRot (caseTrace 1 0 2 90) = 0 ∧ netTransX (caseTrace 1 0 2 90) = 0 ∧
        netTransY (caseTrace 1 0 2 90) = 0) := by
  intro h
  have hx := netTransX_caseTrace 1 0 2 90
  exact one_ne_zero (hx.symm.trans h.2.1)

/-- C2, amended: after a full angle sweep for one case the net cumulative
rotation is zero and the net cumulative translation equals exactly the
one-time static-eccentricity baseline `(static, 0)`; the sum of the deltas
issued inside the sweep loop itself (all rotations and dynamic translations,
including the undo operations) is the zero transform. -/
theorem caseTrace_net_transform (s d p st : ℚ) :
    netRot (caseTrace s d p st) = 0 ∧
    netTransX (caseTrace s d p st) = s ∧
    netTransY (caseTrace s d p st) = 0 ∧
    netRot ((caseTrace s d p st).tail) = 0 ∧
    netTransX ((caseTrace s d p st).tail) = 0 ∧
    netTransY ((caseTrace s d p st).tail) = 0 := by
  refine ⟨netRot_caseTrace s d p st, netTransX_caseTrace s d p st,
    netTransY_caseTrace s d p st, ?_, ?_, ?_⟩
  · show netRot ((arange (360 / (p / 2)) st).flatMap (stepTrace d)) = 0
    simp [netRot_bind, netRot_stepTrace]
  · show netTransX ((arange (360 / (p / 2)) st).flatMap (stepTrace d)) = 0
    simp [netTransX_bind, netTransX_stepTrace]
  · show netTransY ((arange (360 / (p / 2)) st).flatMap (stepTrace d)) = 0
    simp [netTransY_bind, netTransY_stepTrace]

/-- C4: for every positive pole count and every positive electrical step `E`
(degrees), the number of `(angle, torque)` samples recorded for one case is
`⌈360 / E⌉`, independent of the pole count: the mechanical span
`360 / polePairs` divided by the mechanical step `E / polePairs` reduces to
`360 / E`. -/
theorem torqueCurve_length (τ : ℚ → ℚ) (poles E : ℚ)
    (hp : 0 < poles) (hE : 0 < E) :
    (torqueCurve τ poles E).length = (Int.ceil ((360 : ℚ) / E)).toNat := by
  have hpp : poles / 2 ≠ 0 := by positivity
  have hE' : E ≠ 0 := ne_of_gt hE
  have key : 360 / (poles / 2) / (E / (poles / 2)) = (360 : ℚ) / E := by
    field_simp
    ring
  rw [torqueCurve, List.length_map, arange_length, arangeLen, key]

/-- C4, witness: with 4 poles and a 1-electrical-degree step, one case
records `⌈360/1⌉ = 360` samples. -/
theorem torqueCurve_length_witness :
    (0 : ℚ) < 4 ∧ (0 : ℚ) < 1 ∧
      (torqueCurve (fun _ => 0) 4 1).length = (Int.ceil ((360 : ℚ) / 1)).toNat :=
  ⟨by norm_num, by norm_num,
    torqueCurve_length (fun _ => 0) 4 1 (by norm_num) (by norm_num)⟩

/-- C10: the static-eccentricity translation is issued exactly once per
case, as the first transform (the baseline before the angle sweep): the
trace's head is `translate static 0`, the rest of the trace does not depend
on the static eccentricity at all, and every delta issued inside the sweep
loop is a rotation or a dynamic-eccentricity translation. -/
theorem staticError_applied_once (s s' d p st : ℚ) :
    (caseTrace s d p st).head? = some (Delta.translate s 0) ∧
    (caseTrace s d p st).tail = (caseTrace s' d p st).tail ∧
    ∀ δ ∈ (caseTrace s d p st).tail,
      (∃ θ, δ = Delta.rotate θ) ∨ δ = Delta.translate d 0 ∨
        δ = Delta.translate (-d) 0 := by
  refine ⟨rfl, rfl, ?_⟩
  intro δ hδ
  have hδ' : δ ∈ (arange (360 / (p / 2)) st).flatMap (stepTrace d) := hδ
  rw [List.mem_flatMap] at hδ'
  obtain ⟨θ, -, hmem⟩ := hδ'
  by_cases hd : d = 0
  · simp [stepTrace, hd] at hmem
    rcases hmem with h | h <;> exact Or.inl ⟨_, h⟩
  · simp [stepTrace, hd] at hmem
    rcases hmem with h | h | h | h
    · exact Or.inl ⟨_, h⟩
    · exact Or.inr (Or.inl h)
    · exact Or.inr (Or.inr h)
    · exact Or.inl ⟨_, h⟩

theorem product3_eq (ss ds ts : List PyNum) :
    product3 ss ds ts =
      (ss ×ˢ (ds ×ˢ ts)).map
        fun p => GeomCase.mk p.1 p.2.1 p.2.2 := by
  simp only [SProd.sprod, List.product, List.map_flatMap, List.map_map]
  rfl

theorem geomMk_inj :
    Function.Injective
      (fun p : PyNum × PyNum × PyNum => GeomCase.mk p.1 p.2.1 p.2.2) := by
  rintro ⟨a, b, c⟩ ⟨a', b', c'⟩ h
  simp only [GeomCase.mk.injEq] at h
  obtain ⟨h1, h2, h3⟩ := h
  subst h1; subst h2; subst h3; rfl

/-- C9: `itertools.product` over per-dimension value sets of sizes `a`, `b`,
`c` yields exactly `a·b·c` tuples; a tuple occurs in the expansion iff its
components are drawn from the respective value sets; and (for duplicate-free
value sets) each combination appears exactly once.  The order is a pure
function of the value sets, hence fixed and stable across runs. -/
theorem product3_spec (ss ds ts : List PyNum) :
    (product3 ss ds ts).length = ss.length * ds.length * ts.length ∧
    (∀ g : GeomCase, g ∈ product3 ss ds ts ↔ g.se ∈ ss ∧ g.de ∈ ds ∧ g.tl ∈ ts) ∧
    (ss.Nodup → ds.Nodup → ts.Nodup → (product3 ss ds ts).Nodup) := by
  refine ⟨?_, ?_, ?_⟩
  · rw [product3_eq, List.length_map, List.length_product, List.length_product,
      Nat.mul_assoc]
  · intro g
    rw [product3_eq]
    constructor
    · intro h
      obtain ⟨⟨a, b, c⟩, hp, rfl⟩ := List.mem_map.1 h
      have h1 := (List.mem_product.1 hp).1
      have h2 := (List.mem_product.1 (List.mem_product.1 hp).2).1
      have h3 := (List.mem_product.1 (List.mem_product.1 hp).2).2
      exact ⟨h1, h2, h3⟩
    · rintro ⟨h1, h2, h3⟩
      refine List.mem_map.2 ⟨(g.se, g.de, g.tl), ?_, by cases g; rfl⟩
      exact List.mem_product.2 ⟨h1, List.mem_product.2 ⟨h2, h3⟩⟩
  · intro h1 h2 h3
    rw [product3_eq]
    exact (h1.product (h2.product h3)).map geomMk_inj

/-- C9, witness: the expansion of value sets of sizes 2, 1, 1 has `2·1·1`
duplicate-free tuples. -/
theorem product3_spec_witness :
    [zeroF, oneF].Nodup ∧
      (product3 [zeroF, oneF] [zeroF] [zeroF]).length = 2 * 1 * 1 ∧
      (product3 [zeroF, oneF] [zeroF] [zeroF]).Nodup :=
  ⟨by decide, (product3_spec [zeroF, oneF] [zeroF] [zeroF]).1,
    (product3_spec [zeroF, oneF] [zeroF] [zeroF]).2.2 (by decide) (by decide)
      (by decide)⟩

theorem mem_product3 (ss ds ts : List PyNum) (g : GeomCase) :
    g ∈ product3 ss ds ts ↔ g.se ∈ ss ∧ g.de ∈ ds ∧ g.tl ∈ ts := by
  rw [product3]
  constructor
  · intro h
    rw [List.mem_flatMap] at h
    obtain ⟨a, ha, h⟩ := h
    rw [List.mem_flatMap] at h
    obtain ⟨b, hb, h⟩ := h
    obtain ⟨c, hc, rfl⟩ := List.mem_map.1 h
    exact ⟨ha, hb, hc⟩
  · rintro ⟨h1, h2, h3⟩
    rw [List.mem_flatMap]
    refine ⟨g.se, h1, ?_⟩
    rw [List.mem_flatMap]
    refine ⟨g.de, h2, List.mem_map.2 ⟨g.tl, h3, by cases g; rfl⟩⟩

/-- C5: if any exception is raised during a stage-1 case (`oc m c = .err`),
only that case is aborted: the external tool session still ends with
`closefemm`, no result is persisted for that case, and the cases before and
after it in the same motor's batch produce exactly their usual writes. -/
theorem femmCase_failure_isolated (m : Str) (pre post : List GeomCase)
    (c : GeomCase) (oc : Str → GeomCase → SimResult) (h : oc m c = .err) :
    (runSingleCase (oc m c)).1.getLast? = some SessEvent.closed ∧
    motorWrites m (pre ++ c :: post) oc =
      motorWrites m pre oc ++ motorWrites m post oc := by
  constructor
  · rw [h]; rfl
  · simp only [motorWrites, List.flatMap_append, List.flatMap_cons, h,
      runSingleCase, List.isEmpty_nil, if_true]
    simp

/-- C5, witness: a concrete failing case between two succeeding ones. -/
theorem femmCase_failure_isolated_witness :
    ((fun (_ : Str) (g : GeomCase) =>
        if g.se = oneF then SimResult.err else SimResult.ok [(0, 1)])
          "M".toList (GeomCase.mk oneF zeroF zeroF) = SimResult.err) ∧
    (runSingleCase ((fun (_ : Str) (g : GeomCase) =>
        if g.se = oneF then SimResult.err else SimResult.ok [(0, 1)])
          "M".toList (GeomCase.mk oneF zeroF zeroF))).1.getLast? =
        some SessEvent.closed ∧
    motorWrites "M".toList
        ([GeomCase.mk zeroF zeroF zeroF] ++ GeomCase.mk oneF zeroF zeroF ::
          [GeomCase.mk zeroF oneF zeroF])
        (fun _ g => if g.se = oneF then SimResult.err else SimResult.ok [(0, 1)]) =
      motorWrites "M".toList [GeomCase.mk zeroF zeroF zeroF]
        (fun _ g => if g.se = oneF then SimResult.err else SimResult.ok [(0, 1)]) ++
      motorWrites "M".toList [GeomCase.mk zeroF oneF zeroF]
        (fun _ g => if g.se = oneF then SimResult.err else SimResult.ok [(0, 1)]) :=
  ⟨by decide,
    (femmCase_failure_isolated "M".toList [GeomCase.mk zeroF zeroF zeroF]
      [GeomCase.mk zeroF oneF zeroF] (GeomCase.mk oneF zeroF zeroF)
      (fun _ g => if g.se = oneF then SimResult.err else SimResult.ok [(0, 1)])
      (by decide)).1,
    (femmCase_failure_isolated "M".toList [GeomCase.mk zeroF zeroF zeroF]
      [GeomCase.mk zeroF oneF zeroF] (GeomCase.mk oneF zeroF zeroF)
      (fun _ g => if g.se = oneF then SimResult.err else SimResult.ok [(0, 1)])
      (by decide)).2⟩

/-- C8: a motor whose DXF geometry asset is absent is skipped entirely: the
stage-1 batch writes no keys for any of that motor's cases, and the motors
before and after it produce exactly their usual writes. -/
theorem missingDxf_motor_skipped (pre post : List Str) (m : Str)
    (dxf : Str → Bool) (combos : List GeomCase)
    (oc : Str → GeomCase → SimResult) (h : dxf m = false) :
    runFemmBatch (pre ++ m :: post) dxf combos oc =
      runFemmBatch pre dxf combos oc ++ runFemmBatch post dxf combos oc := by
  simp only [runFemmBatch, List.flatMap_append, List.flatMap_cons, h,
    Bool.false_eq_true, if_false]
  simp

/-- C8, witness: with motor "A" lacking its DXF between motors "M" and "N",
the batch equals the two outer motors' batches. -/
theorem missingDxf_motor_skipped_witness :
    ((fun s : Str => decide (s ≠ "A".toList)) "A".toList = false) ∧
    runFemmBatch (["M".toList] ++ "A".toList :: ["N".toList])
        (fun s => decide (s ≠ "A".toList)) [GeomCase.mk zeroF zeroF zeroF]
        (fun _ _ => SimResult.ok [(0, 1)]) =
      runFemmBatch ["M".toList] (fun s => decide (s ≠ "A".toList))
        [GeomCase.mk zeroF zeroF zeroF] (fun _ _ => SimResult.ok [(0, 1)]) ++
      runFemmBatch ["N".toList] (fun s => decide (s ≠ "A".toList))
        [GeomCase.mk zeroF zeroF zeroF] (fun _ _ => SimResult.ok [(0, 1)]) :=
  ⟨by decide, missingDxf_motor_skipped ["M".toList] ["N".toList] "A".toList _ _ _
    (by decide)⟩

theorem mem_motorWrites (m : Str) (combos : List GeomCase)
    (oc : Str → GeomCase → SimResult) (c : GeomCase) (hc : c ∈ combos)
    (curve : List (ℚ × ℚ)) (hoc : oc m c = .ok curve) (hne : curve ≠ []) :
    (stage1Key m c.se c.de c.tl, curve) ∈ motorWrites m combos oc := by
  rw [motorWrites, List.mem_flatMap]
  refine ⟨c, hc, ?_⟩
  simp [runSingleCase, hoc, List.isEmpty_iff, hne]

/-- C1: for a motor whose geometric-error value sets contain the all-zero
tuple and whose nominal stage-1 case completed (nonempty curve), the
nominal-case key that `run_modelica_simulations` constructs directly equals
the key under which `run_femm_simulations` persisted the all-zero case, and
that key is among the stage-1 batch's written keys, so the stage-2
dependency lookup finds the nominal torque curve. -/
theorem nominalKey_found_by_stage2 (motors : List Str) (dxf : Str → Bool)
    (ss ds ts : List PyNum) (oc : Str → GeomCase → SimResult) (m : Str)
    (curve : List (ℚ × ℚ)) (hm : m ∈ motors) (hd : dxf m = true)
    (h1 : zeroF ∈ ss) (h2 : zeroF ∈ ds) (h3 : zeroF ∈ ts)
    (hoc : oc m (GeomCase.mk zeroF zeroF zeroF) = .ok curve) (hne : curve ≠ []) :
    stage2NominalKey m = stage1Key m zeroF zeroF zeroF ∧
    (stage2NominalKey m, curve) ∈ runFemmBatch motors dxf (product3 ss ds ts) oc := by
  refine ⟨stage2NominalKey_eq_stage1Key m, ?_⟩
  rw [stage2NominalKey_eq_stage1Key m, runFemmBatch, List.mem_flatMap]
  refine ⟨m, hm, ?_⟩
  rw [hd]
  simp only [if_true]
  exact mem_motorWrites m _ oc (GeomCase.mk zeroF zeroF zeroF)
    ((mem_product3 ss ds ts (GeomCase.mk zeroF zeroF zeroF)).2 ⟨h1, h2, h3⟩)
    curve hoc hne

/-- C1, witness: a one-motor, all-nominal concrete configuration. -/
theorem nominalKey_found_by_stage2_witness :
    stage2NominalKey "M".toList = stage1Key "M".toList zeroF zeroF zeroF ∧
    (stage2NominalKey "M".toList, [((0 : ℚ), (1 : ℚ))]) ∈
      runFemmBatch ["M".toList] (fun _ => true) (product3 [zeroF] [zeroF] [zeroF])
        (fun _ _ => SimResult.ok [(0, 1)]) :=
  nominalKey_found_by_stage2 ["M".toList] (fun _ => true) [zeroF] [zeroF] [zeroF]
    (fun _ _ => SimResult.ok [(0, 1)]) "M".toList [(0, 1)]
    (by simp) rfl (by simp) (by simp) (by simp) rfl (by simp)

theorem attemptKeys_attempt_cons (k : Str) (l : List S2Event) :
    attemptKeys (S2Event.attempt k :: l) = k :: attemptKeys l := by
  simp [attemptKeys]

theorem attemptKeys_logStderr_cons (k e : Str) (l : List S2Event) :
    attemptKeys (S2Event.logStderr k e :: l) = attemptKeys l := by
  simp [attemptKeys]

theorem attemptKeys_persist_cons (k : Str) (l : List S2Event) :
    attemptKeys (S2Event.persist k :: l) = attemptKeys l := by
  simp [attemptKeys]

theorem attemptKeys_runMotorCases (m : Str) (cs : List SysCase)
    (omc : Str → OmcOutcome)
    (h : ∀ c ∈ cs, omc (stage2Key m c.ctrl c.freq c.rpm) ≠ OmcOutcome.missing) :
    attemptKeys (runMotorCases m cs omc).1 =
      cs.map (fun c => stage2Key m c.ctrl c.freq c.rpm) ∧
    (runMotorCases m cs omc).2 = false := by
  induction cs with
  | nil => simp [runMotorCases, attemptKeys]
  | cons c rest ih =>
    have hc := h c (by simp)
    have hrest : ∀ c' ∈ rest, omc (stage2Key m c'.ctrl c'.freq c'.rpm) ≠
        OmcOutcome.missing := fun c' h' => h c' (List.mem_cons_of_mem c h')
    obtain ⟨ih1, ih2⟩ := ih hrest
    rw [runMotorCases]
    cases hoc : omc (stage2Key m c.ctrl c.freq c.rpm) with
    | missing => exact absurd hoc hc
    | nonZero e =>
      refine ⟨?_, ih2⟩
      rw [List.map_cons, attemptKeys_attempt_cons, attemptKeys_logStderr_cons, ih1]
    | success =>
      refine ⟨?_, ih2⟩
      rw [List.map_cons, attemptKeys_attempt_cons, attemptKeys_persist_cons, ih1]

theorem sysCases_eq (ctrls : List Str) (fs rs : List PyNum) :
    sysCases ctrls fs rs =
      (ctrls ×ˢ (fs ×ˢ rs)).map fun p => SysCase.mk p.1 p.2.1 p.2.2 := by
  simp only [sysCases, SProd.sprod, List.product, List.map_flatMap, List.map_map]
  rfl

theorem sysCases_length (ctrls : List Str) (fs rs : List PyNum) :
    (sysCases ctrls fs rs).length = ctrls.length * fs.length * rs.length := by
  rw [sysCases_eq, List.length_map, List.length_product, List.length_product,
    Nat.mul_assoc]

/-- C6: stage-2 outcome classification for the case at the head of the
remaining batch: a missing `omc` executable aborts (only the attempt and the
fatal abort are emitted, the aborted flag is set, and no later motor of the
batch emits anything); a nonzero exit logs the captured stderr and the batch
continues with exactly the remaining cases' events; success persists the
result under the case's key and continues. -/
theorem omcOutcome_classification (m : Str) (c : SysCase) (rest : List SysCase)
    (omc : Str → OmcOutcome) :
    (omc (stage2Key m c.ctrl c.freq c.rpm) = OmcOutcome.missing →
      runMotorCases m (c :: rest) omc =
        ([S2Event.attempt (stage2Key m c.ctrl c.freq c.rpm), S2Event.fatalAbort],
          true)) ∧
    (∀ e, omc (stage2Key m c.ctrl c.freq c.rpm) = OmcOutcome.nonZero e →
      runMotorCases m (c :: rest) omc =
        (S2Event.attempt (stage2Key m c.ctrl c.freq c.rpm) ::
          S2Event.logStderr (stage2Key m c.ctrl c.freq c.rpm) e ::
          (runMotorCases m rest omc).1, (runMotorCases m rest omc).2)) ∧
    (omc (stage2Key m c.ctrl c.freq c.rpm) = OmcOutcome.success →
      runMotorCases m (c :: rest) omc =
        (S2Event.attempt (stage2Key m c.ctrl c.freq c.rpm) ::
          S2Event.persist (stage2Key m c.ctrl c.freq c.rpm) ::
          (runMotorCases m rest omc).1, (runMotorCases m rest omc).2)) ∧
    (∀ motors store cs, (runMotorCases m cs omc).2 = true →
      store (stage2NominalKey m) = true →
      runModelicaBatch (m :: motors) store cs omc =
        ((runMotorCases m cs omc).1, true)) := by
  refine ⟨?_, ?_, ?_, ?_⟩
  · intro h; rw [runMotorCases, h]
  · intro e h; rw [runMotorCases, h]
  · intro h; rw [runMotorCases, h]
  · intro motors store cs hab hst
    rw [runModelicaBatch, hst]
    simp [hab]

/-- C6, witness: concrete oracles realising each of the three outcomes. -/
theorem omcOutcome_classification_witness :
    runMotorCases "M".toList [SysCase.mk "PI".toList oneF oneF]
        (fun _ => OmcOutcome.missing) =
      ([S2Event.attempt (stage2Key "M".toList "PI".toList oneF oneF),
         S2Event.fatalAbort], true) ∧
    runMotorCases "M".toList [SysCase.mk "PI".toList oneF oneF]
        (fun _ => OmcOutcome.nonZero "e".toList) =
      (S2Event.attempt (stage2Key "M".toList "PI".toList oneF oneF) ::
        S2Event.logStderr (stage2Key "M".toList "PI".toList oneF oneF) "e".toList ::
        (runMotorCases "M".toList [] (fun _ => OmcOutcome.nonZero "e".toList)).1,
        (runMotorCases "M".toList [] (fun _ => OmcOutcome.nonZero "e".toList)).2) ∧
    runMotorCases "M".toList [SysCase.mk "PI".toList oneF oneF]
        (fun _ => OmcOutcome.success) =
      (S2Event.attempt (stage2Key "M".toList "PI".toList oneF oneF) ::
        S2Event.persist (stage2Key "M".toList "PI".toList oneF oneF) ::
        (runMotorCases "M".toList [] (fun _ => OmcOutcome.success)).1,
        (runMotorCases "M".toList [] (fun _ => OmcOutcome.success)).2) ∧
    runModelicaBatch ("M".toList :: ["N".toList]) (fun _ => true)
        [SysCase.mk "PI".toList oneF oneF] (fun _ => OmcOutcome.missing) =
      ((runMotorCases "M".toList [SysCase.mk "PI".toList oneF oneF]
          (fun _ => OmcOutcome.missing)).1, true) :=
  ⟨(omcOutcome_classification "M".toList (SysCase.mk "PI".toList oneF oneF) []
      (fun _ => OmcOutcome.missing)).1 rfl,
   (omcOutcome_classification "M".toList (SysCase.mk "PI".toList oneF oneF) []
      (fun _ => OmcOutcome.nonZero "e".toList)).2.1 "e".toList rfl,
   (omcOutcome_classification "M".toList (SysCase.mk "PI".toList oneF oneF) []
      (fun _ => OmcOutcome.success)).2.2.1 rfl,
   (omcOutcome_classification "M".toList (SysCase.mk "PI".toList oneF oneF) []
      (fun _ => OmcOutcome.missing)).2.2.2 ["N".toList] (fun _ => true)
      [SysCase.mk "PI".toList oneF oneF] rfl rfl⟩

/-- C7: if a motor's nominal stage-1 result is absent from the result store,
its entire stage-2 sweep is skipped with a logged warning, it produces zero
persisted entries, and the remaining motors' batch runs unchanged; if the
nominal result is present (and the solver executable exists), exactly one
case per controller × frequency × speed combination is attempted, and the
combination count is the product of the dimension sizes. -/
theorem nominal_lookup_gates_stage2 (m : Str) (rest : List Str)
    (store : Str → Bool) (cs : List SysCase) (omc : Str → OmcOutcome) :
    (store (stage2NominalKey m) = false →
      runModelicaBatch (m :: rest) store cs omc =
        (S2Event.warnSkipMotor m :: (runModelicaBatch rest store cs omc).1,
          (runModelicaBatch rest store cs omc).2) ∧
      persistKeys (runModelicaBatch (m :: rest) store cs omc).1 =
        persistKeys (runModelicaBatch rest store cs omc).1) ∧
    (store (stage2NominalKey m) = true →
      (∀ c ∈ cs, omc (stage2Key m c.ctrl c.freq c.rpm) ≠ OmcOutcome.missing) →
      attemptKeys (runMotorCases m cs omc).1 =
        cs.map fun c => stage2Key m c.ctrl c.freq c.rpm) ∧
    (∀ (ctrls : List Str) (fs rs : List PyNum),
      (sysCases ctrls fs rs).length = ctrls.length * fs.length * rs.length) := by
  refine ⟨?_, ?_, sysCases_length⟩
  · intro h
    have hbatch : runModelicaBatch (m :: rest) store cs omc =
        (S2Event.warnSkipMotor m :: (runModelicaBatch rest store cs omc).1,
          (runModelicaBatch rest store cs omc).2) := by
      rw [runModelicaBatch, h]
      simp
    refine ⟨hbatch, ?_⟩
    rw [hbatch]
    simp [persistKeys, List.filterMap_cons]
  · intro _ hnm
    exact (attemptKeys_runMotorCases m cs omc hnm).1

/-- C7, witness: a 2-controller × 2-frequency × 1-speed sweep with the
nominal result present attempts all four cases; with it absent the motor is
skipped with a warning and persists nothing. -/
theorem nominal_lookup_gates_stage2_witness :
    ((fun _ : Str => false) (stage2NominalKey "M".toList) = false →
      runModelicaBatch ("M".toList :: []) (fun _ => false)
          (sysCases ["PI".toList, "FOC".toList] [oneF, zeroF] [oneF])
          (fun _ => OmcOutcome.success) =
        (S2Event.warnSkipMotor "M".toList ::
          (runModelicaBatch [] (fun _ => false)
            (sysCases ["PI".toList, "FOC".toList] [oneF, zeroF] [oneF])
            (fun _ => OmcOutcome.success)).1,
          (runModelicaBatch [] (fun _ => false)
            (sysCases ["PI".toList, "FOC".toList] [oneF, zeroF] [oneF])
            (fun _ => OmcOutcome.success)).2) ∧
      persistKeys (runModelicaBatch ("M".toList :: []) (fun _ => false)
          (sysCases ["PI".toList, "FOC".toList] [oneF, zeroF] [oneF])
          (fun _ => OmcOutcome.success)).1 =
        persistKeys (runModelicaBatch [] (fun _ => false)
          (sysCases ["PI".toList, "FOC".toList] [oneF, zeroF] [oneF])
          (fun _ => OmcOutcome.success)).1) ∧
    ((fun _ : Str => true) (stage2NominalKey "M".toList) = true →
      (∀ c ∈ sysCases ["PI".toList, "FOC".toList] [oneF, zeroF] [oneF],
        (fun _ : Str => OmcOutcome.success)
          (stage2Key "M".toList c.ctrl c.freq c.rpm) ≠ OmcOutcome.missing) →
      attemptKeys (runMotorCases "M".toList
          (sysCases ["PI".toList, "FOC".toList] [oneF, zeroF] [oneF])
          (fun _ => OmcOutcome.success)).1 =
        (sysCases ["PI".toList, "FOC".toList] [oneF, zeroF] [oneF]).map
          fun c => stage2Key "M".toList c.ctrl c.freq c.rpm) ∧
    (sysCases ["PI".toList, "FOC".toList] [oneF, zeroF] [oneF]).length = 4 :=
  ⟨(nominal_lookup_gates_stage2 "M".toList [] (fun _ => false)
      (sysCases ["PI".toList, "FOC".toList] [oneF, zeroF] [oneF])
      (fun _ => OmcOutcome.success)).1,
   (nominal_lookup_gates_stage2 "M".toList [] (fun _ => true)
      (sysCases ["PI".toList, "FOC".toList] [oneF, zeroF] [oneF])
      (fun _ => OmcOutcome.success)).2.1,
   (nominal_lookup_gates_stage2 "M".toList [] (fun _ => true)
      (sysCases ["PI".toList, "FOC".toList] [oneF, zeroF] [oneF])
      (fun _ => OmcOutcome.success)).2.2 ["PI".toList, "FOC".toList]
      [oneF, zeroF] [oneF]⟩

theorem sep_cancel (u₁ : List Char) : ∀ (u₂ v₁ v₂ : List Char), '_' ∉ u₁ →
    '_' ∉ u₂ → u₁ ++ '_' :: v₁ = u₂ ++ '_' :: v₂ → u₁ = u₂ ∧ v₁ = v₂ := by
  induction u₁ with
  | nil =>
    intro u₂ v₁ v₂ h₁ h₂ h
    cases u₂ with
    | nil =>
      simp only [List.nil_append] at h
      injection h with ha hb
      exact ⟨rfl, hb⟩
    | cons y ys =>
      simp only [List.nil_append, List.cons_append] at h
      injection h with ha hb
      exfalso
      apply h₂
      rw [ha]
      exact List.mem_cons_self y ys
  | cons x xs ih =>
    intro u₂ v₁ v₂ h₁ h₂ h
    cases u₂ with
    | nil =>
      simp only [List.cons_append, List.nil_append] at h
      injection h with ha hb
      exfalso
      apply h₁
      rw [← ha]
      exact List.mem_cons_self x xs
    | cons y ys =>
      simp only [List.cons_append] at h
      injection h with ha hb
      have hx : '_' ∉ xs := fun hm => h₁ (List.mem_cons_of_mem _ hm)
      have hy : '_' ∉ ys := fun hm => h₂ (List.mem_cons_of_mem _ hm)
      obtain ⟨e1, e2⟩ := ih ys v₁ v₂ hx hy hb
      exact ⟨by rw [ha, e1], e2⟩

theorem not_p_pynum (x : PyNum) : ∀ c ∈ x.val, c ≠ 'p' := by
  intro c hc he
  subst he
  rcases x.prop.2 'p' hc with h | h | h <;> exact absurd h (by decide)

theorem not_underscore_pynum (x : PyNum) : '_' ∉ x.val := by
  intro hc
  rcases x.prop.2 '_' hc with h | h | h <;> exact absurd h (by decide)

theorem dotToP_chars (x : PyNum) :
    ∀ ch ∈ dotToP x.val, ch.isDigit ∨ ch = 'p' ∨ ch = '-' := by
  intro ch hch
  rw [dotToP, List.mem_map] at hch
  obtain ⟨c, hc, rfl⟩ := hch
  rcases x.prop.2 c hc with h | h | h
  · have hne : c ≠ '.' := by
      intro he
      rw [he] at h
      exact absurd h (by decide)
    simp [hne, h]
  · simp [h]
  · have hne : c ≠ '.' := by rw [h]; decide
    simp [hne, h]

theorem not_underscore_dotToP (x : PyNum) : '_' ∉ dotToP x.val := by
  intro hc
  rcases dotToP_chars x '_' hc with h | h | h <;> exact absurd h (by decide)

theorem pToDot_dotToP (s : Str) (hp : ∀ c ∈ s, c ≠ 'p') :
    pToDot (dotToP s) = s := by
  induction s with
  | nil => rfl
  | cons c cs ih =>
    have hc := hp c (List.mem_cons_self c cs)
    have hcs : ∀ x ∈ cs, x ≠ 'p' := fun x hx => hp x (List.mem_cons_of_mem _ hx)
    have hd : dotToP (c :: cs) = (if c = '.' then 'p' else c) :: dotToP cs := rfl
    have hpd : ∀ (x : Char) (xs : Str),
        pToDot (x :: xs) = (if x = 'p' then '.' else x) :: pToDot xs :=
      fun _ _ => rfl
    rw [hd, hpd]
    by_cases hdot : c = '.'
    · rw [if_pos hdot, if_pos rfl, ih hcs, hdot]
    · rw [if_neg hdot, if_neg hc, ih hcs]

theorem dotToP_inj_pynum {x y : PyNum} (h : dotToP x.val = dotToP y.val) :
    x = y := by
  have hx := pToDot_dotToP x.val (not_p_pynum x)
  have hy := pToDot_dotToP y.val (not_p_pynum y)
  exact Subtype.ext (by rw [← hx, ← hy, h])

theorem caseName_no_p (a b c : PyNum) : ∀ ch ∈ caseName a b c, ch ≠ 'p' := by
  intro ch hch he
  subst he
  rw [caseName] at hch
  simp only [List.mem_append] at hch
  rcases hch with ((((h | h) | h) | h) | h) | h
  · exact absurd h (by decide)
  · exact not_p_pynum a 'p' h rfl
  · exact absurd h (by decide)
  · exact not_p_pynum b 'p' h rfl
  · exact absurd h (by decide)
  · exact not_p_pynum c 'p' h rfl

theorem stage1Key_expand (m : Str) (a b c : PyNum) :
    stage1Key m a b c =
      m ++ ("_static_".toList ++ (dotToP a.val ++ ("_dyn_".toList ++
        (dotToP b.val ++ ("_tilt_".toList ++ (dotToP c.val ++
          ".csv".toList)))))) := by
  simp [stage1Key, caseName, dotToP, List.map_append]

theorem stage1Key_rev (m : Str) (a b c : PyNum) :
    (stage1Key m a b c).reverse =
      (['v', 's', 'c', '.'] ++ (dotToP c.val).reverse) ++ '_' ::
        (['t', 'l', 'i', 't'] ++ '_' ::
          ((dotToP b.val).reverse ++ '_' ::
            (['n', 'y', 'd'] ++ '_' ::
              ((dotToP a.val).reverse ++ '_' ::
                (['c', 'i', 't', 'a', 't', 's'] ++ '_' :: m.reverse))))) := by
  rw [stage1Key_expand]
  simp [List.reverse_append]

theorem stage1Key_inj {m₁ m₂ : Str} {a₁ b₁ c₁ a₂ b₂ c₂ : PyNum}
    (h : stage1Key m₁ a₁ b₁ c₁ = stage1Key m₂ a₂ b₂ c₂) :
    m₁ = m₂ ∧ a₁ = a₂ ∧ b₁ = b₂ ∧ c₁ = c₂ := by
  have hrev := congrArg List.reverse h
  rw [stage1Key_rev, stage1Key_rev] at hrev
  have hu : ∀ x : PyNum, '_' ∉ ['v', 's', 'c', '.'] ++ (dotToP x.val).reverse := by
    intro x hmem
    rcases List.mem_append.1 hmem with hm | hm
    · exact absurd hm (by decide)
    · exact not_underscore_dotToP x (List.mem_reverse.1 hm)
  have hv : ∀ x : PyNum, '_' ∉ (dotToP x.val).reverse :=
    fun x hm => not_underscore_dotToP x (List.mem_reverse.1 hm)
  obtain ⟨e1, e2⟩ := sep_cancel _ _ _ _ (hu c₁) (hu c₂) hrev
  obtain ⟨-, e3⟩ := sep_cancel _ _ _ _ (by decide) (by decide) e2
  obtain ⟨e4, e5⟩ := sep_cancel _ _ _ _ (hv b₁) (hv b₂) e3
  obtain ⟨-, e6⟩ := sep_cancel _ _ _ _ (by decide) (by decide) e5
  obtain ⟨e7, e8⟩ := sep_cancel _ _ _ _ (hv a₁) (hv a₂) e6
  obtain ⟨-, e9⟩ := sep_cancel _ _ _ _ (by decide) (by decide) e8
  have hc : c₁ = c₂ := by
    have := List.append_cancel_left e1
    exact dotToP_inj_pynum (List.reverse_inj.1 this)
  have hb : b₁ = b₂ := dotToP_inj_pynum (List.reverse_inj.1 e4)
  have ha : a₁ = a₂ := dotToP_inj_pynum (List.reverse_inj.1 e7)
  exact ⟨List.reverse_inj.1 e9, ha, hb, hc⟩

theorem stage2File_rev (m ctrl : Str) (f r : PyNum) :
    (stage2File m ctrl f r).reverse =
      ['v', 's', 'c', '.', 's', 'e', 'r'] ++ '_' ::
        ((['m', 'p', 'r'] ++ r.val.reverse) ++ '_' ::
          ((['z', 'H', 'k'] ++ f.val.reverse) ++ '_' ::
            (ctrl.reverse ++ '_' :: m.reverse))) := by
  simp [stage2File, stage2Key, List.reverse_append]

theorem stage2File_inj {m₁ m₂ ctrl₁ ctrl₂ : Str} {f₁ r₁ f₂ r₂ : PyNum}
    (hc₁ : '_' ∉ ctrl₁) (hc₂ : '_' ∉ ctrl₂)
    (h : stage2File m₁ ctrl₁ f₁ r₁ = stage2File m₂ ctrl₂ f₂ r₂) :
    m₁ = m₂ ∧ ctrl₁ = ctrl₂ ∧ f₁ = f₂ ∧ r₁ = r₂ := by
  have hrev := congrArg List.reverse h
  rw [stage2File_rev, stage2File_rev] at hrev
  have hu : ∀ (lit : Str) (x : PyNum), '_' ∉ lit → '_' ∉ lit ++ x.val.reverse := by
    intro lit x hlit hmem
    rcases List.mem_append.1 hmem with hm | hm
    · exact hlit hm
    · exact not_underscore_pynum x (List.mem_reverse.1 hm)
  obtain ⟨-, e1⟩ := sep_cancel _ _ _ _ (by decide) (by decide) hrev
  obtain ⟨e2, e3⟩ := sep_cancel _ _ _ _ (hu _ r₁ (by decide)) (hu _ r₂ (by decide)) e1
  obtain ⟨e4, e5⟩ := sep_cancel _ _ _ _ (hu _ f₁ (by decide)) (hu _ f₂ (by decide)) e3
  obtain ⟨e6, e7⟩ := sep_cancel _ _ _ _
    (fun hm => hc₁ (List.mem_reverse.1 hm))
    (fun hm => hc₂ (List.mem_reverse.1 hm)) e5
  refine ⟨List.reverse_inj.1 e7, List.reverse_inj.1 e6, ?_, ?_⟩
  · exact Subtype.ext (List.reverse_inj.1 (List.append_cancel_left e4))
  · exact Subtype.ext (List.reverse_inj.1 (List.append_cancel_left e2))

theorem stage1Key_ne_stage2File (m₁ : Str) (a b c : PyNum) (m₂ ctrl : Str)
    (f r : PyNum) : stage1Key m₁ a b c ≠ stage2File m₂ ctrl f r := by
  intro h
  have hrev := congrArg List.reverse h
  rw [stage1Key_rev, stage2File_rev] at hrev
  cases hrc : (dotToP c.val).reverse with
  | nil =>
    have : dotToP c.val = [] := List.reverse_eq_nil_iff.1 hrc
    have hnil : c.val = [] := by
      have hlen := congrArg List.length this
      rw [dotToP, List.length_map] at hlen
      exact List.eq_nil_of_length_eq_zero hlen
    exact c.prop.1 hnil
  | cons ch chs =>
    rw [hrc] at hrev
    simp only [List.cons_append, List.nil_append, List.append_assoc] at hrev
    have hch : ch = 's' := by
      simp only [List.cons.injEq] at hrev
      exact hrev.2.2.2.2.1
    have hmem : ch ∈ dotToP c.val := by
      rw [← List.mem_reverse, hrc]
      exact List.mem_cons_self ch chs
    rw [hch] at hmem
    rcases dotToP_chars c 's' hmem with hd | hd | hd <;> exact absurd hd (by decide)

/-- C3: CaseIdentity is injective over the produced key space — two
`(motor id, case tuple, stage)` triples whose stage-2 controller names are
underscore-free generate the same result key only if they are equal (stage-1
and stage-2 keys never collide with each other for any identifiers) — and
the `'.' ↦ 'p'` filesystem-safe substitution is reversible on case names, so
the numeric renderings (hence the values) are recoverable from the key. -/
theorem caseIdentity_injective :
    (∀ (m₁ m₂ : Str) (t₁ t₂ : CaseTuple), ctrlOk t₁ → ctrlOk t₂ →
      resultKey m₁ t₁ = resultKey m₂ t₂ → m₁ = m₂ ∧ t₁ = t₂) ∧
    (∀ a b c : PyNum, pToDot (dotToP (caseName a b c)) = caseName a b c) := by
  constructor
  · intro m₁ m₂ t₁ t₂ h₁ h₂ h
    cases t₁ with
    | s1 g₁ =>
      cases t₂ with
      | s1 g₂ =>
        simp only [resultKey] at h
        obtain ⟨hm, ha, hb, hc⟩ := stage1Key_inj h
        refine ⟨hm, ?_⟩
        cases g₁
        cases g₂
        simp only at ha hb hc
        rw [ha, hb, hc]
      | s2 c₂ =>
        simp only [resultKey] at h
        exact absurd h (stage1Key_ne_stage2File _ _ _ _ _ _ _ _)
    | s2 sc₁ =>
      cases t₂ with
      | s1 g₂ =>
        simp only [resultKey] at h
        exact absurd h.symm (stage1Key_ne_stage2File _ _ _ _ _ _ _ _)
      | s2 sc₂ =>
        simp only [resultKey] at h
        obtain ⟨hm, hc, hf, hr⟩ := stage2File_inj h₁ h₂ h
        refine ⟨hm, ?_⟩
        cases sc₁
        cases sc₂
        simp only at hc hf hr
        rw [hc, hf, hr]
  · intro a b c
    exact pToDot_dotToP _ (caseName_no_p a b c)

/-- C3, witness: concrete triples — a stage-1 nominal tuple and a stage-2
case with controller "PI" — and a concrete reversibility instance. -/
theorem caseIdentity_injective_witness :
    ("M".toList = "M".toList ∧
      CaseTuple.s2 (SysCase.mk "PI".toList oneF zeroF) =
        CaseTuple.s2 (SysCase.mk "PI".toList oneF zeroF)) ∧
    pToDot (dotToP (caseName zeroF oneF zeroF)) = caseName zeroF oneF zeroF :=
  ⟨caseIdentity_injective.1 "M".toList "M".toList
      (CaseTuple.s2 (SysCase.mk "PI".toList oneF zeroF))
      (CaseTuple.s2 (SysCase.mk "PI".toList oneF zeroF))
      (show ('_' : Char) ∉ "PI".toList by decide)
      (show ('_' : Char) ∉ "PI".toList by decide) rfl,
    caseIdentity_injective.2 zeroF oneF zeroF⟩
